/-
  Verification of the quantile-sketch and runner components of the
  `cpp-benchmark` micro-benchmark harness.

  The development shallowly embeds `SimpleDDSketch`
  (src/src/component/measurements.cpp together with its header), the
  worker's `MoveSketch` handoff
  (src/include/dbgroup/benchmark/component/worker.hpp) and the runner's
  throughput computation (`Benchmarker::LogThroughput`).

  Modelling conventions:
  * `size_t` arithmetic is `ℕ` with explicit `% 2^64`; the `uint32_t`
    bin counters use `% 2^32`.
  * `double` values are idealised as exact rationals (`ℚ`); the one
    transcendental computation, `std::ceil(std::log(lat) / denom_)`,
    is embedded over `ℝ` with `Real.log`.
  * `std::vector` is `List`; an out-of-bounds vector access is
    undefined behaviour in the source and is modelled by `Option`
    (`none` = the operation has no defined result).
  * the fixed 2048-entry `std::array` of a single operation kind is a
    total function `ℕ → ℕ`; the store through an index that the source
    would compute past the end of the array is likewise mapped to
    `none`.
-/
import Mathlib

set_option maxRecDepth 8000

namespace CppBench

/-- `kBinNum = 2048`, the number of bins of `SimpleDDSketch`. -/
def kBinNum : ℕ := 2048

/-- The modulus of `uint32_t` arithmetic. -/
def U32 : ℕ := 2 ^ 32

/-- The modulus of `size_t` arithmetic (the target is 64-bit). -/
def U64 : ℕ := 2 ^ 64

/-- `kAlpha = 0.01`, the desired relative error (exact rational reading
of the `double` constant). -/
def kAlpha : ℚ := 1 / 100

/-- `kGamma = (1.0 + kAlpha) / (1.0 - kAlpha)`, the base value for the
log-spaced bins. -/
def kGamma : ℚ := (1 + kAlpha) / (1 - kAlpha)

/-- The real reading of `kGamma`, used by the `std::log`-based bin
computation. -/
noncomputable def kGammaR : ℝ := ((kGamma : ℚ) : ℝ)

/-- `denom_ = std::log(kGamma)`, the denominator of the change of base. -/
noncomputable def denomR : ℝ := Real.log kGammaR

/-- The bin position computed by `SimpleDDSketch::Add`:
`(lat == 0) ? 0 : static_cast<size_t>(std::ceil(std::log(lat) / denom_))`.
For `lat ≥ 1` the argument of the cast is nonnegative, so the
truncating cast is the natural ceiling. -/
noncomputable def binIndex (lat : ℕ) : ℕ :=
  if lat = 0 then 0 else ⌈Real.log (lat : ℝ) / denomR⌉₊

/-- The state of `SimpleDDSketch` (field names follow the C++ class).
`bins_` holds, per operation kind, the 2048 `uint32_t` counters as a
total function on bin indices. -/
structure SimpleDDSketch where
  min_ : List ℕ
  max_ : List ℕ
  exec_nums_ : List ℕ
  bins_ : List (ℕ → ℕ)
  total_exec_num_ : ℕ
  total_exec_time_nano_ : ℕ

namespace SimpleDDSketch

/-- The constructor `SimpleDDSketch(ops_num)`: `min_` is filled with
`~0UL = 2^64 - 1`, `max_` and the counts with `0`, and the bins with
zeroed arrays. -/
def init (ops_num : ℕ) : SimpleDDSketch :=
  ⟨List.replicate ops_num (U64 - 1),
   List.replicate ops_num 0,
   List.replicate ops_num 0,
   List.replicate ops_num (fun _ => 0),
   0, 0⟩

/-- `SimpleDDSketch::Add(ops_id, cnt, lat)`.  The source indexes
`min_[ops_id]`, `max_[ops_id]`, `bins_[ops_id][pos]` and
`exec_nums_[ops_id]` unchecked; an out-of-range `ops_id`, or a bin
position `pos ≥ kBinNum` (the source computes the position without
clamping), is an out-of-bounds access and yields `none`. -/
noncomputable def Add (s : SimpleDDSketch) (ops_id cnt lat : ℕ) :
    Option SimpleDDSketch :=
  if ops_id < s.min_.length ∧ ops_id < s.max_.length ∧
      ops_id < s.exec_nums_.length ∧ ops_id < s.bins_.length ∧
      binIndex lat < kBinNum then
    some ⟨s.min_.set ops_id (if lat < s.min_.getD ops_id 0 then lat
            else s.min_.getD ops_id 0),
          s.max_.set ops_id (if lat > s.max_.getD ops_id 0 then lat
            else s.max_.getD ops_id 0),
          s.exec_nums_.set ops_id ((s.exec_nums_.getD ops_id 0 + 1) % U64),
          s.bins_.set ops_id (fun j =>
            if j = binIndex lat
            then (s.bins_.getD ops_id (fun _ => 0) j + 1) % U32
            else s.bins_.getD ops_id (fun _ => 0) j),
          (s.total_exec_num_ + cnt) % U64,
          (s.total_exec_time_nano_ + lat) % U64⟩
  else none

/-- Index-aware list map, used to express the per-kind loop of
`operator+=`. -/
def mapWithIndex (f : ℕ → α → β) : List α → List β
  | [] => []
  | a :: l => f 0 a :: mapWithIndex (fun i x => f (i + 1) x) l

/-- `SimpleDDSketch::operator+=(rhs)`: accumulates the two scalar
totals, then for every `ops_id` below the left-hand side's
`bins_.size()` adds `rhs.exec_nums_[ops_id]` and, bin-wise,
`rhs.bins_[ops_id]`.  `min_` and `max_` are not touched.  The loop
reads `rhs` (and writes the lhs's `exec_nums_`) unchecked, so a vector
that is shorter than the lhs's `bins_.size()` is an out-of-bounds
access (`none`). -/
def addAssign (s rhs : SimpleDDSketch) : Option SimpleDDSketch :=
  if s.bins_.length ≤ s.exec_nums_.length ∧
      s.bins_.length ≤ rhs.exec_nums_.length ∧
      s.bins_.length ≤ rhs.bins_.length then
    some ⟨s.min_, s.max_,
          mapWithIndex (fun i v =>
            if i < s.bins_.length
            then (v + rhs.exec_nums_.getD i 0) % U64 else v) s.exec_nums_,
          mapWithIndex (fun i b =>
            if i < s.bins_.length
            then (fun j => if j < kBinNum
              then (b j + rhs.bins_.getD i (fun _ => 0) j) % U32 else b j)
            else b) s.bins_,
          (s.total_exec_num_ + rhs.total_exec_num_) % U64,
          (s.total_exec_time_nano_ + rhs.total_exec_time_nano_) % U64⟩
  else none

/-- `HasLatency(ops_id)`: `exec_nums_.at(ops_id) > 0` (checked access). -/
def HasLatency (s : SimpleDDSketch) (ops_id : ℕ) : Option Bool :=
  (s.exec_nums_.get? ops_id).map (fun e => 0 < e)

/-- The running count of the `Quantile` walk after the bin at index `i`
has been accumulated (`size_t` additions). -/
def cntAt (b : ℕ → ℕ) : ℕ → ℕ
  | 0 => b 0
  | i + 1 => (cntAt b i + b (i + 1)) % U64

/-- The `while (i < kBinNum - 1 && cnt <= bound) { cnt += bins[++i]; }`
loop of `Quantile`, with the remaining iteration budget made explicit
(`fuel` = `kBinNum - 1 - i` at the call site). -/
def walkFrom (b : ℕ → ℕ) (bound : ℕ) : ℕ → ℕ → ℕ → ℕ
  | 0, _, i => i
  | fuel + 1, cnt, i =>
    if i < kBinNum - 1 ∧ cnt ≤ bound
    then walkFrom b bound fuel ((cnt + b (i + 1)) % U64) (i + 1)
    else i

/-- The value returned from the walk:
`static_cast<size_t>(2 * std::pow(kGamma, i) / (kGamma + 1))`. -/
def quantileVal (i : ℕ) : ℕ := ⌊2 * kGamma ^ i / (kGamma + 1)⌋₊

/-- `exec_nums_[ops_id] - 1` in `size_t` arithmetic (wraps to
`2^64 - 1` when the count is zero). -/
def sizeSub1 (n : ℕ) : ℕ := (n + (U64 - 1)) % U64

/-- `SimpleDDSketch::Quantile(ops_id, q)`.  `q == 0` returns
`min_[ops_id]`, `q >= 1.0` returns `max_[ops_id]`; otherwise
`bound = static_cast<size_t>(q * (exec_nums_[ops_id] - 1))` and the
walk runs from bin 0.  Unchecked vector reads are `Option`-guarded. -/
def Quantile (s : SimpleDDSketch) (ops_id : ℕ) (q : ℚ) : Option ℕ :=
  if q = 0 then s.min_.get? ops_id
  else if 1 ≤ q then s.max_.get? ops_id
  else
    (s.exec_nums_.get? ops_id).bind fun n =>
      (s.bins_.get? ops_id).map fun b =>
        quantileVal (walkFrom b ⌊q * ((sizeSub1 n : ℕ) : ℚ)⌋₊
          (kBinNum - 1) (b 0) 0)

end SimpleDDSketch

/-- Sketch states reachable from the constructor by `Add` and
`operator+=` (all operations defined, i.e. no undefined behaviour). -/
inductive Reachable : SimpleDDSketch → Prop
  | init (ops_num : ℕ) : Reachable (SimpleDDSketch.init ops_num)
  | add {s s' : SimpleDDSketch} (ops_id cnt lat : ℕ) :
      Reachable s → s.Add ops_id cnt lat = some s' → Reachable s'
  | merge {s r m : SimpleDDSketch} :
      Reachable s → Reachable r → s.addAssign r = some m → Reachable m

/-- The worker's sketch slot (the other members of `Worker` — target,
engine, iterator, flag, stopwatch — do not participate in the sketch
handoff). -/
structure Worker where
  sketch_ : SimpleDDSketch

/-- The moved-from state of a `SimpleDDSketch`: the `std::vector`
members are left empty (libstdc++ behaviour of a moved-from vector),
the scalar members are copied. -/
def movedFromSketch (s : SimpleDDSketch) : SimpleDDSketch :=
  ⟨[], [], [], [], s.total_exec_num_, s.total_exec_time_nano_⟩

/-- `Worker::MoveSketch()`: `return std::move(sketch_);` — returns the
current sketch and leaves the moved-from sketch behind.  There is no
double-move guard in the source. -/
def Worker.MoveSketch (w : Worker) : SimpleDDSketch × Worker :=
  (w.sketch_, ⟨movedFromSketch w.sketch_⟩)

/-- The value printed by `Benchmarker::LogThroughput`:
`exec_num / (avg_nano_time / 1E9)` with
`avg_nano_time = sketch.GetTotalExecTime() / thread_num_` (integer
division of `size_t`), idealising the `double` arithmetic as exact. -/
def logThroughputValue (s : SimpleDDSketch) (thread_num : ℕ) : ℚ :=
  (s.total_exec_num_ : ℚ) /
    (((s.total_exec_time_nano_ / thread_num : ℕ) : ℚ) / 10 ^ 9)

/-- The merge loop of `Benchmarker::Run`: `sketch := results[0]`, then
`sketch += results[i]` for the remaining workers. -/
def mergeAll : List SimpleDDSketch → Option SimpleDDSketch
  | [] => none
  | s :: rest => rest.foldlM SimpleDDSketch.addAssign s

/-- The sketch obtained from `SimpleDDSketch(1)` followed by
`Add(0, 1, 1)` (a single one-nanosecond sample of kind 0); the equality
with the result of `Add` is proved below. -/
def oneSampleOne : SimpleDDSketch :=
  ⟨[1], [1], [1], [fun j => if j = 0 then 1 else 0], 1, 1⟩

/-- The sketch obtained from `SimpleDDSketch(1)` followed by `m`
repetitions of `Add(0, 0, 0)` (for `m ≥ 1`); the `uint32_t` bin counter
holds `m % 2^32` while `exec_nums_[0]` holds `m % 2^64`. -/
def zeroAddSketch (m : ℕ) : SimpleDDSketch :=
  ⟨[0], [0], [m % U64], [fun j => if j = 0 then m % U32 else 0], 0, 0⟩

/-- `m` repetitions of `Add(0, 0, 0)` starting from `SimpleDDSketch(1)`. -/
noncomputable def addZeros : ℕ → Option SimpleDDSketch
  | 0 => some (SimpleDDSketch.init 1)
  | n + 1 => (addZeros n).bind (fun s => s.Add 0 0 0)

/-- The sketch obtained from `SimpleDDSketch(1)` followed by
`Add(0, 1, l)` for `1 ≤ l < 2^64 - 1` (proved below). -/
noncomputable def singleSketch (l : ℕ) : SimpleDDSketch :=
  ⟨[l], [l], [1], [fun j => if j = binIndex l then 1 else 0], 1, l⟩

/-- The all-zero bin array of a freshly constructed sketch. -/
def zeroBins : ℕ → ℕ := fun _ => 0

/-- A one-kind sketch holding a single latency-5 sample (bin contents
irrelevant to the min/max-merge claims). -/
def sketchA : SimpleDDSketch := ⟨[5], [5], [1], [fun _ => 0], 1, 5⟩

/-- A one-kind sketch holding a single latency-3 sample. -/
def sketchB : SimpleDDSketch := ⟨[3], [3], [1], [fun _ => 0], 1, 3⟩

/-- A kind-free worker result carrying only the throughput totals
(10 operations, 8 ns). -/
def workerResA : SimpleDDSketch := ⟨[], [], [], [], 10, 8⟩

/-- A kind-free worker result carrying only the throughput totals
(30 operations, 8 ns). -/
def workerResB : SimpleDDSketch := ⟨[], [], [], [], 30, 8⟩

/-- The merge of `workerResA` and `workerResB`. -/
def workerResM : SimpleDDSketch := ⟨[], [], [], [], 40, 16⟩

/-! ### Basic facts about the constants -/

theorem kGamma_eq : kGamma = 101 / 99 := by
  norm_num [kGamma, kAlpha]

theorem one_lt_kGammaQ : (1 : ℚ) < kGamma := by
  rw [kGamma_eq]; norm_num

theorem kGammaR_eq : kGammaR = 101 / 99 := by
  rw [kGammaR, kGamma_eq]; norm_num

theorem one_lt_kGammaR : (1 : ℝ) < kGammaR := by
  rw [kGammaR_eq]; norm_num

theorem kGammaR_pos : (0 : ℝ) < kGammaR := lt_trans one_pos one_lt_kGammaR

theorem denomR_pos : (0 : ℝ) < denomR := Real.log_pos one_lt_kGammaR

theorem denomR_le : denomR ≤ 2 / 99 := by
  have h := Real.log_le_sub_one_of_pos kGammaR_pos
  rw [kGammaR_eq] at h
  calc denomR = Real.log kGammaR := rfl
    _ ≤ 101 / 99 - 1 := by rw [kGammaR_eq]; exact h
    _ = 2 / 99 := by norm_num

theorem le_denomR : 2 / 101 ≤ denomR := by
  have h1 : (99 : ℝ) / 101 ≤ Real.exp (-(2 / 101)) := by
    have := Real.add_one_le_exp (-(2 / 101 : ℝ))
    linarith
  have h2 : Real.exp (2 / 101 : ℝ) ≤ 101 / 99 := by
    have hpos : (0 : ℝ) < 99 / 101 := by norm_num
    have := one_div_le_one_div_of_le hpos h1
    rw [one_div, ← Real.exp_neg, neg_neg] at this
    calc Real.exp (2 / 101 : ℝ) ≤ 1 / (99 / 101) := this
      _ = 101 / 99 := by norm_num
  have h3 := (Real.le_log_iff_exp_le kGammaR_pos).mpr (by rwa [kGammaR_eq])
  calc (2 / 101 : ℝ) = Real.log (Real.exp (2 / 101)) := (Real.log_exp _).symm
    _ ≤ Real.log kGammaR := by
        exact (Real.log_le_log_iff (Real.exp_pos _) kGammaR_pos).mpr
          (by rwa [kGammaR_eq])

/-! ### The bin position of `Add` -/

theorem binIndex_zero : binIndex 0 = 0 := by simp [binIndex]

theorem binIndex_one : binIndex 1 = 0 := by
  simp [binIndex, Real.log_one]

/-- For every latency up to `10^17` ns (about 3.2 years) the computed
bin position stays inside the array. -/
theorem binIndex_le_of_le (lat : ℕ) (hl : lat ≤ 10 ^ 17) :
    binIndex lat ≤ kBinNum - 1 := by
  by_cases h0 : lat = 0
  · simp [h0, binIndex_zero, kBinNum]
  · have hpos : (0 : ℝ) < lat := by
      exact_mod_cast Nat.pos_of_ne_zero h0
    have hle : (lat : ℝ) ≤ (2 : ℝ) ^ (57 : ℕ) := by
      have : (lat : ℝ) ≤ ((10 : ℕ) ^ 17 : ℕ) := by exact_mod_cast hl
      calc (lat : ℝ) ≤ ((10 : ℕ) ^ 17 : ℕ) := this
        _ ≤ (2 : ℝ) ^ (57 : ℕ) := by norm_num
    have hlog : Real.log lat ≤ 57 * Real.log 2 := by
      calc Real.log lat ≤ Real.log ((2 : ℝ) ^ (57 : ℕ)) :=
            (Real.log_le_log_iff hpos (by positivity)).mpr hle
        _ = (57 : ℕ) * Real.log 2 := Real.log_pow 2 57
        _ = 57 * Real.log 2 := by norm_num
    have hlog2 : Real.log lat < 40 := by
      have := Real.log_two_lt_d9
      nlinarith
    rw [binIndex, if_neg h0, kBinNum]
    have : Real.log lat / denomR ≤ (2047 : ℕ) := by
      rw [div_le_iff₀ denomR_pos]
      have h1 : (2047 : ℝ) * (2 / 101) ≤ 2047 * denomR := by
        have := le_denomR; nlinarith [denomR_pos]
      have h2 : (40 : ℝ) ≤ 2047 * (2 / 101) := by norm_num
      push_cast
      linarith
    exact Nat.ceil_le.mpr this

/-- A latency of `10^19` ns drives the unclamped bin position past the
end of the 2048-entry array. -/
theorem binIndex_big : 2048 ≤ binIndex (10 ^ 19) := by
  have h0 : (10 : ℕ) ^ 19 ≠ 0 := by norm_num
  rw [binIndex, if_neg h0]
  have hpos : (0 : ℝ) < ((10 : ℕ) ^ 19 : ℕ) := by positivity
  have hexp : Real.exp 42 ≤ ((10 : ℕ) ^ 19 : ℕ) := by
    have h1 : Real.exp 42 = Real.exp 1 ^ (42 : ℕ) := by
      rw [← Real.exp_nat_mul]; norm_num
    have h2 : Real.exp 1 ^ (42 : ℕ) ≤ (2.7182818286 : ℝ) ^ (42 : ℕ) :=
      pow_le_pow_left₀ (Real.exp_pos 1).le Real.exp_one_lt_d9.le 42
    have h3 : (2.7182818286 : ℝ) ^ (42 : ℕ) ≤ ((10 : ℕ) ^ 19 : ℕ) := by
      norm_num
    calc Real.exp 42 = Real.exp 1 ^ (42 : ℕ) := h1
      _ ≤ (2.7182818286 : ℝ) ^ (42 : ℕ) := h2
      _ ≤ ((10 : ℕ) ^ 19 : ℕ) := h3
  have hlog : (42 : ℝ) ≤ Real.log ((10 : ℕ) ^ 19 : ℕ) :=
    (Real.le_log_iff_exp_le hpos).mpr hexp
  have hnum : (2047 : ℝ) * denomR < 42 := by
    have := denomR_le
    nlinarith [denomR_pos]
  have : (2047 : ℝ) < Real.log ((10 : ℕ) ^ 19 : ℕ) / denomR := by
    rw [lt_div_iff₀ denomR_pos]
    linarith
  have h2048 : 2047 < ⌈Real.log ((10 : ℕ) ^ 19 : ℕ) / denomR⌉₊ :=
    Nat.lt_ceil.mpr this
  omega

/-- The characterising inequalities of the bin position: for a positive
latency `l`, `Gamma^(binIndex l)` is at least `l` and less than
`Gamma · l`. -/
theorem binIndex_bounds (lat : ℕ) (hl : 1 ≤ lat) :
    (lat : ℝ) ≤ kGammaR ^ binIndex lat ∧
      kGammaR ^ binIndex lat < kGammaR * lat := by
  have h0 : lat ≠ 0 := by omega
  have hpos : (0 : ℝ) < lat := by exact_mod_cast Nat.pos_of_ne_zero h0
  have hx0 : 0 ≤ Real.log lat / denomR := by
    have h := Real.log_nonneg (show (1 : ℝ) ≤ lat by exact_mod_cast hl)
    exact div_nonneg h denomR_pos.le
  rw [binIndex, if_neg h0]
  have hdr : Real.log kGammaR = denomR := rfl
  constructor
  · have h1 : Real.log lat / denomR ≤ (⌈Real.log lat / denomR⌉₊ : ℝ) :=
      Nat.le_ceil _
    have h2 : Real.log lat ≤ (⌈Real.log lat / denomR⌉₊ : ℝ) * denomR := by
      rw [div_le_iff₀ denomR_pos] at h1; exact h1
    have h3 : Real.log lat ≤ Real.log (kGammaR ^ ⌈Real.log lat / denomR⌉₊) := by
      rw [Real.log_pow, hdr]; exact h2
    exact (Real.log_le_log_iff hpos (pow_pos kGammaR_pos _)).mp h3
  · have h1 : (⌈Real.log lat / denomR⌉₊ : ℝ) < Real.log lat / denomR + 1 :=
      Nat.ceil_lt_add_one hx0
    have h2 : (⌈Real.log lat / denomR⌉₊ : ℝ) * denomR < Real.log lat + denomR := by
      have hd := denomR_pos
      have h1m : (⌈Real.log lat / denomR⌉₊ : ℝ) * denomR <
          (Real.log lat / denomR + 1) * denomR :=
        mul_lt_mul_of_pos_right h1 hd
      have : (Real.log lat / denomR + 1) * denomR = Real.log lat + denomR := by
        field_simp
      linarith
    have h3 : Real.log (kGammaR ^ ⌈Real.log lat / denomR⌉₊) <
        Real.log (kGammaR * lat) := by
      rw [Real.log_pow, hdr,
        Real.log_mul (ne_of_gt kGammaR_pos) (ne_of_gt hpos), hdr]
      linarith
    exact (Real.log_lt_log_iff (pow_pos kGammaR_pos _)
      (mul_pos kGammaR_pos hpos)).mp h3

/-! ### List helpers -/

theorem listGet?_set (l : List α) (i j : ℕ) (a : α) :
    (l.set i a).get? j =
      if i = j then (if i < l.length then some a else none) else l.get? j := by
  simp [List.get?_eq_getElem?, List.getElem?_set]

theorem listGet?_replicate (n i : ℕ) (a : α) :
    (List.replicate n a).get? i = if i < n then some a else none := by
  simp [List.get?_eq_getElem?, List.getElem?_replicate]

theorem listGetD_eq (l : List α) (i : ℕ) (d : α) :
    l.getD i d = (l.get? i).getD d := by
  simp [List.getD_eq_getElem?_getD, List.get?_eq_getElem?]

theorem mapWithIndex_get? (f : ℕ → α → β) (l : List α) (i : ℕ) :
    (SimpleDDSketch.mapWithIndex f l).get? i = (l.get? i).map (f i) := by
  induction l generalizing f i with
  | nil => simp [SimpleDDSketch.mapWithIndex]
  | cons a t ih =>
    cases i with
    | zero => simp [SimpleDDSketch.mapWithIndex]
    | succ i => simpa [SimpleDDSketch.mapWithIndex] using ih _ i

theorem mapWithIndex_length (f : ℕ → α → β) (l : List α) :
    (SimpleDDSketch.mapWithIndex f l).length = l.length := by
  induction l generalizing f with
  | nil => rfl
  | cons a t ih => simpa [SimpleDDSketch.mapWithIndex] using ih _

/-! ### The quantile walk -/

theorem walkFrom_spec (b : ℕ → ℕ) (bound : ℕ) :
    ∀ fuel i, i + fuel = kBinNum - 1 →
      i ≤ SimpleDDSketch.walkFrom b bound fuel (SimpleDDSketch.cntAt b i) i ∧
      SimpleDDSketch.walkFrom b bound fuel (SimpleDDSketch.cntAt b i) i ≤
        kBinNum - 1 ∧
      (∀ j, i ≤ j →
        j < SimpleDDSketch.walkFrom b bound fuel (SimpleDDSketch.cntAt b i) i →
        SimpleDDSketch.cntAt b j ≤ bound) ∧
      (SimpleDDSketch.walkFrom b bound fuel (SimpleDDSketch.cntAt b i) i <
          kBinNum - 1 →
        bound < SimpleDDSketch.cntAt b
          (SimpleDDSketch.walkFrom b bound fuel (SimpleDDSketch.cntAt b i) i)) := by
  intro fuel
  induction fuel with
  | zero =>
    intro i hi
    simp only [SimpleDDSketch.walkFrom]
    refine ⟨le_refl _, by omega, ?_, by omega⟩
    intro j h1 h2; omega
  | succ fuel ih =>
    intro i hi
    by_cases hc : i < kBinNum - 1 ∧ SimpleDDSketch.cntAt b i ≤ bound
    · have hstep :
          SimpleDDSketch.walkFrom b bound (fuel + 1)
              (SimpleDDSketch.cntAt b i) i =
            SimpleDDSketch.walkFrom b bound fuel
              (SimpleDDSketch.cntAt b (i + 1)) (i + 1) := by
        simp only [SimpleDDSketch.walkFrom, if_pos hc, SimpleDDSketch.cntAt]
      have hrec := ih (i + 1) (by omega)
      rw [hstep]
      refine ⟨by omega, hrec.2.1, ?_, hrec.2.2.2⟩
      intro j h1 h2
      rcases Nat.eq_or_lt_of_le h1 with rfl | h1'
      · exact hc.2
      · exact hrec.2.2.1 j (by omega) h2
    · have hstop :
          SimpleDDSketch.walkFrom b bound (fuel + 1)
              (SimpleDDSketch.cntAt b i) i = i := by
        simp only [SimpleDDSketch.walkFrom, if_neg hc]
      rw [hstop]
      refine ⟨le_refl _, by omega, ?_, ?_⟩
      · intro j h1 h2; omega
      · intro hlt
        rcases not_and_or.mp hc with h | h
        · omega
        · omega

/-- The walk of `Quantile`, as run from bin 0: the result `r` is the
first index whose running count exceeds `bound`, or `kBinNum - 1` when
no count below the last bin does. -/
theorem walk_result_props (b : ℕ → ℕ) (bound : ℕ) :
    SimpleDDSketch.walkFrom b bound (kBinNum - 1) (b 0) 0 ≤ kBinNum - 1 ∧
    (∀ j, j < SimpleDDSketch.walkFrom b bound (kBinNum - 1) (b 0) 0 →
      SimpleDDSketch.cntAt b j ≤ bound) ∧
    (SimpleDDSketch.walkFrom b bound (kBinNum - 1) (b 0) 0 < kBinNum - 1 →
      bound < SimpleDDSketch.cntAt b
        (SimpleDDSketch.walkFrom b bound (kBinNum - 1) (b 0) 0)) := by
  have h := walkFrom_spec b bound (kBinNum - 1) 0 (by simp)
  have hb0 : SimpleDDSketch.cntAt b 0 = b 0 := rfl
  rw [hb0] at h
  exact ⟨h.2.1, fun j hj => h.2.2.1 j (Nat.zero_le _) hj, h.2.2.2⟩

/-- Walk results are monotone in the bound. -/
theorem walk_result_mono (b : ℕ → ℕ) (bd1 bd2 : ℕ) (h : bd1 ≤ bd2) :
    SimpleDDSketch.walkFrom b bd1 (kBinNum - 1) (b 0) 0 ≤
      SimpleDDSketch.walkFrom b bd2 (kBinNum - 1) (b 0) 0 := by
  have h1 := walk_result_props b bd1
  have h2 := walk_result_props b bd2
  by_contra hlt
  push_neg at hlt
  have hr2 : SimpleDDSketch.walkFrom b bd2 (kBinNum - 1) (b 0) 0 <
      kBinNum - 1 := lt_of_lt_of_le hlt h1.1
  have hgt := h2.2.2 hr2
  have hle := h1.2.1 _ hlt
  omega

/-- The midpoint value is monotone in the bin index. -/
theorem quantileVal_mono {i j : ℕ} (h : i ≤ j) :
    SimpleDDSketch.quantileVal i ≤ SimpleDDSketch.quantileVal j := by
  unfold SimpleDDSketch.quantileVal
  apply Nat.floor_mono
  have hpow : kGamma ^ i ≤ kGamma ^ j :=
    pow_le_pow_right₀ one_lt_kGammaQ.le h
  have hden : (0 : ℚ) < kGamma + 1 := by
    have := one_lt_kGammaQ; linarith
  apply div_le_div_of_nonneg_right ?_ hden.le
  linarith

/-- The midpoint value of the last bin is a large positive number. -/
theorem quantileVal_last_ne_zero : SimpleDDSketch.quantileVal (kBinNum - 1) ≠ 0 := by
  unfold SimpleDDSketch.quantileVal
  have h2 : kGamma ^ (2 : ℕ) ≤ kGamma ^ (kBinNum - 1) :=
    pow_le_pow_right₀ one_lt_kGammaQ.le (by norm_num [kBinNum])
  have h2v : kGamma ^ (2 : ℕ) = 10201 / 9801 := by
    rw [kGamma_eq]; norm_num
  have hden : (0 : ℚ) < kGamma + 1 := by
    have := one_lt_kGammaQ; linarith
  have h1 : (1 : ℚ) ≤ 2 * kGamma ^ (kBinNum - 1) / (kGamma + 1) := by
    rw [le_div_iff₀ hden, kGamma_eq]
    rw [kGamma_eq] at h2
    have h2v' : ((101 : ℚ) / 99) ^ (2 : ℕ) = 10201 / 9801 := by norm_num
    linarith [h2, h2v']
  have := Nat.le_floor (α := ℚ) (n := 1) (by exact_mod_cast h1)
  omega

/-! ### Inversion and unfolding lemmas for the sketch operations -/

theorem cntAt_zero (i : ℕ) : SimpleDDSketch.cntAt (fun _ => 0) i = 0 := by
  induction i with
  | zero => rfl
  | succ i ih => simp [SimpleDDSketch.cntAt, ih]

theorem sizeSub1_zero : SimpleDDSketch.sizeSub1 0 = U64 - 1 := by
  simp [SimpleDDSketch.sizeSub1, U64]

theorem sizeSub1_eq (n : ℕ) (h1 : 1 ≤ n) (h2 : n < U64) :
    SimpleDDSketch.sizeSub1 n = n - 1 := by
  simp only [SimpleDDSketch.sizeSub1, U64] at *
  omega

theorem Add_inv {s s' : SimpleDDSketch} {k cnt lat : ℕ}
    (h : s.Add k cnt lat = some s') :
    k < s.min_.length ∧ k < s.max_.length ∧ k < s.exec_nums_.length ∧
    k < s.bins_.length ∧ binIndex lat < kBinNum ∧
    s' = ⟨s.min_.set k (if lat < s.min_.getD k 0 then lat
            else s.min_.getD k 0),
          s.max_.set k (if lat > s.max_.getD k 0 then lat
            else s.max_.getD k 0),
          s.exec_nums_.set k ((s.exec_nums_.getD k 0 + 1) % U64),
          s.bins_.set k (fun j =>
            if j = binIndex lat
            then (s.bins_.getD k (fun _ => 0) j + 1) % U32
            else s.bins_.getD k (fun _ => 0) j),
          (s.total_exec_num_ + cnt) % U64,
          (s.total_exec_time_nano_ + lat) % U64⟩ := by
  unfold SimpleDDSketch.Add at h
  split at h
  · rename_i hc
    exact ⟨hc.1, hc.2.1, hc.2.2.1, hc.2.2.2.1, hc.2.2.2.2,
      (Option.some_injective _ h).symm⟩
  · exact absurd h (by simp)

theorem addAssign_inv {s r m : SimpleDDSketch}
    (h : s.addAssign r = some m) :
    s.bins_.length ≤ s.exec_nums_.length ∧
    s.bins_.length ≤ r.exec_nums_.length ∧
    s.bins_.length ≤ r.bins_.length ∧
    m = ⟨s.min_, s.max_,
          SimpleDDSketch.mapWithIndex (fun i v =>
            if i < s.bins_.length
            then (v + r.exec_nums_.getD i 0) % U64 else v) s.exec_nums_,
          SimpleDDSketch.mapWithIndex (fun i b =>
            if i < s.bins_.length
            then (fun j => if j < kBinNum
              then (b j + r.bins_.getD i (fun _ => 0) j) % U32 else b j)
            else b) s.bins_,
          (s.total_exec_num_ + r.total_exec_num_) % U64,
          (s.total_exec_time_nano_ + r.total_exec_time_nano_) % U64⟩ := by
  unfold SimpleDDSketch.addAssign at h
  split at h
  · rename_i hc
    exact ⟨hc.1, hc.2.1, hc.2.2, (Option.some_injective _ h).symm⟩
  · exact absurd h (by simp)

theorem Quantile_mid {s : SimpleDDSketch} {k : ℕ} {q : ℚ} {n : ℕ}
    {b : ℕ → ℕ} (hq0 : q ≠ 0) (hq1 : ¬ 1 ≤ q)
    (hn : s.exec_nums_.get? k = some n) (hb : s.bins_.get? k = some b) :
    s.Quantile k q = some (SimpleDDSketch.quantileVal
      (SimpleDDSketch.walkFrom b ⌊q * ((SimpleDDSketch.sizeSub1 n : ℕ) : ℚ)⌋₊
        (kBinNum - 1) (b 0) 0)) := by
  rw [List.get?_eq_getElem?] at hn hb
  simp [SimpleDDSketch.Quantile, hq0, hq1, hn, hb]

theorem walk_zero_bins (bound : ℕ) :
    SimpleDDSketch.walkFrom (fun _ => 0) bound (kBinNum - 1) 0 0 =
      kBinNum - 1 := by
  have h := walk_result_props (fun _ => 0) bound
  by_contra hne
  have hlt : SimpleDDSketch.walkFrom (fun _ => 0) bound (kBinNum - 1) 0 0 <
      kBinNum - 1 := lt_of_le_of_ne h.1 hne
  have := h.2.2 hlt
  rw [cntAt_zero] at this
  omega

/-! ### Claim C2 — bin-index clamping (code bug: the source does not
clamp) -/

/-- C2: the claim states that the bin index of `Add` is clamped to
`kBinNum - 1 = 2047` and the bucket increment never touches an index
outside the 2048-entry array.  The source computes
`ceil(log(lat)/denom_)` without any clamp: at `lat = 10^19` ns the
index is at least 2048 and the increment `++bins_[ops_id][pos]` is an
out-of-bounds write (undefined behaviour, modelled as `none`). -/
theorem C2_add_bin_overflow :
    2048 ≤ binIndex (10 ^ 19) ∧
      (SimpleDDSketch.init 1).Add 0 1 (10 ^ 19) = none := by
  refine ⟨binIndex_big, ?_⟩
  unfold SimpleDDSketch.Add
  rw [if_neg]
  intro hc
  have h1 := hc.2.2.2.2
  have h2 := binIndex_big
  rw [kBinNum] at h1
  omega

/-! ### Claim C7 — quantiles of an empty kind -/

/-- C7 (counterexample): the claim states that on a sketch whose kind
has zero recorded samples `Quantile(k, q)` returns 0 for every `q` in
`[0, 1]`.  On the freshly constructed sketch, `Quantile(0, 0)` returns
`min_[0] = ~0UL = 2^64 - 1`, not 0. -/
theorem C7_quantile_empty_cex :
    (SimpleDDSketch.init 1).Quantile 0 0 = some (U64 - 1) ∧
      U64 - 1 ≠ 0 := by
  constructor
  · simp [SimpleDDSketch.Quantile, SimpleDDSketch.init, listGet?_replicate]
  · norm_num [U64]

/-- C7 (amended): on a freshly constructed sketch (every kind has zero
samples), `Quantile(k, 0)` returns the initial minimum `2^64 - 1`,
`Quantile(k, q)` for `q ≥ 1` returns the initial maximum 0, and for
`0 < q < 1` the walk exhausts all bins and returns the (nonzero)
midpoint value of the last bin. -/
theorem C7_quantile_empty (n k : ℕ) (q : ℚ) (hk : k < n) :
    (SimpleDDSketch.init n).Quantile k 0 = some (U64 - 1) ∧
    (1 ≤ q → (SimpleDDSketch.init n).Quantile k q = some 0) ∧
    (0 < q → q < 1 → (SimpleDDSketch.init n).Quantile k q =
      some (SimpleDDSketch.quantileVal (kBinNum - 1))) ∧
    SimpleDDSketch.quantileVal (kBinNum - 1) ≠ 0 := by
  refine ⟨?_, ?_, ?_, quantileVal_last_ne_zero⟩
  · simp [SimpleDDSketch.Quantile, SimpleDDSketch.init, listGet?_replicate, hk]
  · intro hq
    have hq0 : q ≠ 0 := by intro h; rw [h] at hq; norm_num at hq
    simp [SimpleDDSketch.Quantile, hq0, hq, SimpleDDSketch.init,
      listGet?_replicate, hk]
  · intro hq0 hq1
    have hn : (SimpleDDSketch.init n).exec_nums_.get? k = some 0 := by
      simp [SimpleDDSketch.init, listGet?_replicate, hk]
    have hb : (SimpleDDSketch.init n).bins_.get? k =
        some (fun _ => 0) := by
      simp [SimpleDDSketch.init, listGet?_replicate, hk]
    rw [Quantile_mid (ne_of_gt hq0) (not_le.mpr hq1) hn hb]
    rw [walk_zero_bins]

/-! ### Claim C8 — merge shape checking -/

/-- C8 (counterexample): the claim states that merging sketches with
different kind counts fails with *ShapeMismatch*, so that merge
succeeds only on equal shapes.  Merging a 3-kind sketch into a 2-kind
sketch succeeds in the source (the loop runs over the lhs's
`bins_.size()` and silently ignores the extra kinds). -/
theorem C8_merge_mismatch_cex :
    ((SimpleDDSketch.init 2).addAssign (SimpleDDSketch.init 3)).isSome = true ∧
      (SimpleDDSketch.init 2).bins_.length ≠
        (SimpleDDSketch.init 3).bins_.length := by
  constructor
  · simp [SimpleDDSketch.addAssign, SimpleDDSketch.init]
  · simp [SimpleDDSketch.init]

/-- C8 (amended): `operator+=` performs no shape check at all: the
merge is defined exactly when the right-hand sketch is at least as wide
as the left-hand side's `bins_.size()` (no error is raised on a
mismatch; a larger rhs is silently truncated, a smaller rhs is an
out-of-bounds read). -/
theorem C8_merge_no_shape_check (s r : SimpleDDSketch)
    (hw : s.bins_.length ≤ s.exec_nums_.length) :
    (s.addAssign r).isSome = true ↔
      (s.bins_.length ≤ r.exec_nums_.length ∧
        s.bins_.length ≤ r.bins_.length) := by
  unfold SimpleDDSketch.addAssign
  split
  · rename_i hc
    simp only [Option.isSome_some, true_iff]
    exact ⟨hc.2.1, hc.2.2⟩
  · rename_i hc
    simp only [Option.isSome_none, Bool.false_eq_true, false_iff]
    intro hcon
    exact hc ⟨hw, hcon.1, hcon.2⟩

/-! ### Claim C10 — sketch handoff -/

/-- C10 (counterexample): the claim states that a second call to
`MoveSketch` on the same worker signals a *ProgrammingError*.  The
source body is `return std::move(sketch_);` with no double-move guard:
the second call returns normally, yielding the moved-from (emptied)
sketch instead of an error. -/
theorem C10_move_sketch_cex :
    (Worker.MoveSketch ((Worker.MoveSketch ⟨SimpleDDSketch.init 1⟩).2)).1 =
      movedFromSketch (SimpleDDSketch.init 1) ∧
    movedFromSketch (SimpleDDSketch.init 1) ≠ SimpleDDSketch.init 1 := by
  refine ⟨rfl, ?_⟩
  intro h
  have := congrArg (fun s => s.min_.length) h
  simp [movedFromSketch, SimpleDDSketch.init] at this

/-- C10 (amended): `MoveSketch` transfers the sketch on its first call;
a second call on the same worker does not signal any error — it
returns the moved-from sketch, which differs from the originally held
sketch whenever the latter is nonempty. -/
theorem C10_move_sketch (w : Worker) :
    (Worker.MoveSketch w).1 = w.sketch_ ∧
    (w.sketch_.min_ ≠ [] →
      (Worker.MoveSketch ((Worker.MoveSketch w).2)).1 ≠ w.sketch_) := by
  refine ⟨rfl, ?_⟩
  intro hne heq
  apply hne
  have := congrArg SimpleDDSketch.min_ heq
  simpa [Worker.MoveSketch, movedFromSketch] using this.symm

/-! ### Claim C1 — min/max under merge -/

/-- C1 (counterexample): the claim states that merging `s2` into `s1`
takes the element-wise minimum of the minima, so that
`Quantile(k, 0)` on the merged sketch is `min(s1.min[k], s2.min[k])`.
With `s1.min[0] = 5` and `s2.min[0] = 3` (equal one-kind shapes) the
merged sketch answers `Quantile(0, 0) = 5`, not `min 5 3 = 3`:
`operator+=` never touches `min_`. -/
theorem C1_merge_min_cex :
    ((sketchA.addAssign sketchB).bind fun m => m.Quantile 0 0) = some 5 ∧
      ((sketchA.addAssign sketchB).bind fun m => m.Quantile 0 0) ≠
        some (min 5 3) := by
  have h : ((sketchA.addAssign sketchB).bind fun m => m.Quantile 0 0) =
      some 5 := by
    simp [sketchA, sketchB, SimpleDDSketch.addAssign,
      SimpleDDSketch.Quantile]
  refine ⟨h, ?_⟩
  rw [h]
  simp

/-- C1 (amended): `operator+=` merges the execution counts, bins and
scalar totals but leaves `min_` and `max_` of the left-hand sketch
unchanged; consequently, on the merged sketch `Quantile(k, 0)` returns
`s1.min[k]` and `Quantile(k, q)` for `q ≥ 1` returns `s1.max[k]`,
independently of `s2`. -/
theorem C1_merge_keeps_min_max (s r m : SimpleDDSketch)
    (h : s.addAssign r = some m) :
    m.min_ = s.min_ ∧ m.max_ = s.max_ ∧
    (∀ k, m.Quantile k 0 = s.min_.get? k) ∧
    (∀ k q, 1 ≤ q → m.Quantile k q = s.max_.get? k) := by
  obtain ⟨-, -, -, rfl⟩ := addAssign_inv h
  refine ⟨rfl, rfl, ?_, ?_⟩
  · intro k
    simp [SimpleDDSketch.Quantile]
  · intro k q hq
    have hq0 : q ≠ 0 := by intro hh; rw [hh] at hq; norm_num at hq
    simp [SimpleDDSketch.Quantile, hq0, hq]

/-- C1 (witness). -/
theorem C1_merge_keeps_min_max_witness :
    workerResA.addAssign workerResB = some workerResM ∧
    (workerResM.min_ = workerResA.min_ ∧
      workerResM.max_ = workerResA.max_ ∧
      (∀ k, workerResM.Quantile k 0 = workerResA.min_.get? k) ∧
      (∀ k q, 1 ≤ q → workerResM.Quantile k q = workerResA.max_.get? k)) :=
  ⟨rfl, C1_merge_keeps_min_max workerResA workerResB workerResM rfl⟩

/-! ### Claim C9 — the printed throughput -/

theorem mergeAll_totals (rest : List SimpleDDSketch) :
    ∀ s0 m : SimpleDDSketch, mergeAll (s0 :: rest) = some m →
      s0.total_exec_num_ +
          (rest.map SimpleDDSketch.total_exec_num_).sum < U64 →
      s0.total_exec_time_nano_ +
          (rest.map SimpleDDSketch.total_exec_time_nano_).sum < U64 →
      m.total_exec_num_ = s0.total_exec_num_ +
          (rest.map SimpleDDSketch.total_exec_num_).sum ∧
      m.total_exec_time_nano_ = s0.total_exec_time_nano_ +
          (rest.map SimpleDDSketch.total_exec_time_nano_).sum := by
  induction rest with
  | nil =>
    intro s0 m hm h1 h2
    have : some s0 = some m := hm
    obtain rfl := Option.some_injective _ this
    simp
  | cons r rest ih =>
    intro s0 m hm h1 h2
    have hm' : (s0.addAssign r).bind
        (fun s1 => rest.foldlM SimpleDDSketch.addAssign s1) = some m := hm
    obtain ⟨s1, hs1, hfold⟩ := Option.bind_eq_some.mp hm'
    obtain ⟨-, -, -, rfl⟩ := addAssign_inv hs1
    simp only [List.map_cons, List.sum_cons] at h1 h2
    have ht : (s0.total_exec_num_ + r.total_exec_num_) % U64 =
        s0.total_exec_num_ + r.total_exec_num_ :=
      Nat.mod_eq_of_lt (by omega)
    have hv : (s0.total_exec_time_nano_ + r.total_exec_time_nano_) % U64 =
        s0.total_exec_time_nano_ + r.total_exec_time_nano_ :=
      Nat.mod_eq_of_lt (by omega)
    have := ih _ m hfold (by simp only [ht]; omega) (by simp only [hv]; omega)
    simp only [ht, hv] at this
    simp only [List.map_cons, List.sum_cons]
    omega

/-- C9: the throughput printed by the runner equals
`total_exec_count / ((total_exec_time_nano / thread_count) / 1e9)`
where the totals are those of the sketch merged from all worker
results (`/ thread_count` is the `size_t` integer division performed
by the source; the `double` arithmetic is idealised as exact). -/
theorem C9_throughput (s0 : SimpleDDSketch) (rest : List SimpleDDSketch)
    (m : SimpleDDSketch) (t : ℕ)
    (hm : mergeAll (s0 :: rest) = some m)
    (h1 : ((s0 :: rest).map SimpleDDSketch.total_exec_num_).sum < U64)
    (h2 : ((s0 :: rest).map SimpleDDSketch.total_exec_time_nano_).sum < U64) :
    logThroughputValue m t =
      (((s0 :: rest).map SimpleDDSketch.total_exec_num_).sum : ℚ) /
        ((((((s0 :: rest).map SimpleDDSketch.total_exec_time_nano_).sum) / t :
          ℕ) : ℚ) / 10 ^ 9) := by
  simp only [List.map_cons, List.sum_cons] at h1 h2 ⊢
  obtain ⟨he, hv⟩ := mergeAll_totals rest s0 m hm h1 h2
  rw [logThroughputValue, he, hv]

/-- C9 (witness). -/
theorem C9_throughput_witness :
    mergeAll [workerResA, workerResB] = some workerResM ∧
    (([workerResA, workerResB].map SimpleDDSketch.total_exec_num_).sum < U64) ∧
    (([workerResA, workerResB].map
      SimpleDDSketch.total_exec_time_nano_).sum < U64) ∧
    logThroughputValue workerResM 2 =
      (([workerResA, workerResB].map SimpleDDSketch.total_exec_num_).sum : ℚ) /
        ((((([workerResA, workerResB].map
          SimpleDDSketch.total_exec_time_nano_).sum) / 2 : ℕ) : ℚ) / 10 ^ 9) :=
  ⟨rfl, by decide, by decide,
    C9_throughput workerResA [workerResB] workerResM 2 rfl (by decide)
      (by decide)⟩

/-! ### Single-sample sketches -/

theorem walkFrom_stop (b : ℕ → ℕ) (bound cnt i fuel : ℕ)
    (h : ¬ (i < kBinNum - 1 ∧ cnt ≤ bound)) :
    SimpleDDSketch.walkFrom b bound fuel cnt i = i := by
  cases fuel with
  | zero => rfl
  | succ fuel => simp [SimpleDDSketch.walkFrom, h]

theorem quantileVal_zero : SimpleDDSketch.quantileVal 0 = 0 := by
  have h : 2 * kGamma ^ (0 : ℕ) / (kGamma + 1) = 99 / 100 := by
    rw [kGamma_eq]; norm_num
  rw [SimpleDDSketch.quantileVal, h]
  rw [Nat.floor_eq_zero]
  norm_num

theorem Add_init_single (l : ℕ) (h1 : 1 ≤ l) (h2 : l < U64 - 1)
    (hbin : binIndex l < kBinNum) :
    (SimpleDDSketch.init 1).Add 0 1 l = some (singleSketch l) := by
  have hl64 : l < U64 := by
    simp only [U64] at h2 ⊢
    omega
  unfold SimpleDDSketch.Add
  rw [if_pos]
  · unfold SimpleDDSketch.init singleSketch
    simp only [List.replicate, List.set_cons_zero, List.getD, List.get?,
      List.getElem?_cons_zero, Option.getD_some, Option.some.injEq,
      SimpleDDSketch.mk.injEq]
    refine ⟨?_, ?_, ?_, ?_, ?_, ?_⟩
    · rw [if_pos h2]
    · rw [if_pos (show l > 0 by omega)]
    · norm_num [U64]
    · have hfun : (fun j : ℕ =>
          if j = binIndex l then ((0 : ℕ) + 1) % U32 else (0 : ℕ)) =
          (fun j => if j = binIndex l then 1 else 0) := by
        funext j
        by_cases hj : j = binIndex l <;> simp [hj, U32]
      simp only [List.cons.injEq, and_true]
      rw [← hfun]
    · norm_num [U64]
    · rw [Nat.zero_add, Nat.mod_eq_of_lt hl64]
  · refine ⟨?_, ?_, ?_, ?_, hbin⟩ <;> simp [SimpleDDSketch.init]

theorem singleSketch_one : singleSketch 1 = oneSampleOne := by
  unfold singleSketch oneSampleOne
  have hfun : (fun j => if j = binIndex 1 then 1 else 0) =
      (fun j : ℕ => if j = 0 then 1 else 0) := by
    funext j
    rw [binIndex_one]
  rw [hfun]

theorem add_one_one :
    (SimpleDDSketch.init 1).Add 0 1 1 = some oneSampleOne := by
  rw [← singleSketch_one]
  exact Add_init_single 1 (le_refl 1) (by norm_num [U64])
    (by rw [binIndex_one]; norm_num [kBinNum])

theorem cntAt_indicator (p : ℕ) :
    ∀ j, SimpleDDSketch.cntAt (fun x => if x = p then 1 else 0) j =
      if p ≤ j then 1 else 0 := by
  intro j
  induction j with
  | zero =>
    by_cases h : (0 : ℕ) = p
    · simp [SimpleDDSketch.cntAt, ← h]
    · have : ¬ p ≤ 0 := by omega
      simp [SimpleDDSketch.cntAt, this, h]
  | succ j ih =>
    rw [SimpleDDSketch.cntAt, ih]
    by_cases h1 : p ≤ j
    · have h2 : ¬ (j + 1 = p) := by omega
      have h3 : p ≤ j + 1 := by omega
      simp [h1, h2, h3, U64]
    · by_cases h2 : j + 1 = p
      · have h3 : p ≤ j + 1 := by omega
        simp [h1, h2, h3, U64]
      · have h3 : ¬ p ≤ j + 1 := by omega
        simp [h1, h2, h3, U64]

theorem walk_indicator (p : ℕ) (hp : p ≤ kBinNum - 1) :
    SimpleDDSketch.walkFrom (fun x => if x = p then 1 else 0) 0
      (kBinNum - 1) ((fun x : ℕ => if x = p then 1 else 0) 0) 0 = p := by
  have h := walk_result_props (fun x => if x = p then 1 else 0) 0
  set r := SimpleDDSketch.walkFrom (fun x => if x = p then 1 else 0) 0
    (kBinNum - 1) ((fun x : ℕ => if x = p then 1 else 0) 0) 0 with hr
  rcases lt_trichotomy r p with hlt | heq | hgt
  · exfalso
    have hrlt : r < kBinNum - 1 := by omega
    have := h.2.2 hrlt
    rw [cntAt_indicator] at this
    have hnp : ¬ p ≤ r := by omega
    rw [if_neg hnp] at this
    omega
  · exact heq
  · exfalso
    have := h.2.1 p hgt
    rw [cntAt_indicator] at this
    rw [if_pos (le_refl p)] at this
    omega

theorem singleSketch_quantile_mid (l : ℕ) (q : ℚ)
    (hq0 : 0 < q) (hq1 : q < 1) (hbin : binIndex l ≤ kBinNum - 1) :
    (singleSketch l).Quantile 0 q =
      some (SimpleDDSketch.quantileVal (binIndex l)) := by
  have hn : (singleSketch l).exec_nums_.get? 0 = some 1 := rfl
  have hb : (singleSketch l).bins_.get? 0 =
      some (fun j => if j = binIndex l then 1 else 0) := rfl
  rw [Quantile_mid (ne_of_gt hq0) (not_le.mpr hq1) hn hb]
  have hs1 : SimpleDDSketch.sizeSub1 1 = 0 :=
    sizeSub1_eq 1 (le_refl 1) (by norm_num [U64])
  rw [hs1]
  have hb0 : ⌊q * ((0 : ℕ) : ℚ)⌋₊ = 0 := by simp
  rw [hb0, walk_indicator (binIndex l) hbin]

theorem oneSample_quantile_zero : oneSampleOne.Quantile 0 0 = some 1 := by
  simp [SimpleDDSketch.Quantile, oneSampleOne]

theorem oneSample_quantile_mid (q : ℚ) (hq0 : 0 < q) (hq1 : q < 1) :
    oneSampleOne.Quantile 0 q = some 0 := by
  rw [← singleSketch_one,
    singleSketch_quantile_mid 1 q hq0 hq1
      (by rw [binIndex_one]; norm_num [kBinNum]),
    binIndex_one, quantileVal_zero]

/-! ### Claim C3 — the quantile computation -/

/-- C3: for a sketch and kind with a positive execution count and
`0 < q < 1`, `Quantile` computes `bound = ⌊q · (exec_count - 1)⌋`,
walks the bins from index 0 accumulating counts, stops at the first
index whose running count exceeds `bound` (or at the last bin when no
count below it does), and returns `⌊2·Gamma^i / (Gamma+1)⌋`; moreover
`Quantile(k, 0)` returns `min[k]` and `Quantile(k, q')` for `q' ≥ 1`
returns `max[k]`. -/
theorem C3_quantile_walk (s : SimpleDDSketch) (k n : ℕ) (b : ℕ → ℕ) (q : ℚ)
    (hn : s.exec_nums_.get? k = some n) (hb : s.bins_.get? k = some b)
    (hn64 : n < U64) (hpos : 0 < n) (hq0 : 0 < q) (hq1 : q < 1) :
    s.Quantile k 0 = s.min_.get? k ∧
    (∀ p : ℚ, 1 ≤ p → s.Quantile k p = s.max_.get? k) ∧
    (∃ i, s.Quantile k q = some (SimpleDDSketch.quantileVal i) ∧
      i ≤ kBinNum - 1 ∧
      (∀ j, j < i →
        SimpleDDSketch.cntAt b j ≤ ⌊q * ((n - 1 : ℕ) : ℚ)⌋₊) ∧
      (i < kBinNum - 1 →
        ⌊q * ((n - 1 : ℕ) : ℚ)⌋₊ < SimpleDDSketch.cntAt b i)) := by
  refine ⟨?_, ?_, ?_⟩
  · simp [SimpleDDSketch.Quantile]
  · intro p hp
    have hp0 : p ≠ 0 := by intro h; rw [h] at hp; norm_num at hp
    simp [SimpleDDSketch.Quantile, hp0, hp]
  · rw [Quantile_mid (ne_of_gt hq0) (not_le.mpr hq1) hn hb,
      sizeSub1_eq n hpos hn64]
    refine ⟨SimpleDDSketch.walkFrom b ⌊q * ((n - 1 : ℕ) : ℚ)⌋₊
      (kBinNum - 1) (b 0) 0, rfl, ?_, ?_, ?_⟩
    · exact (walk_result_props b _).1
    · exact (walk_result_props b _).2.1
    · exact (walk_result_props b _).2.2

/-- C3 (witness). -/
theorem C3_quantile_walk_witness :
    oneSampleOne.exec_nums_.get? 0 = some 1 ∧
    oneSampleOne.bins_.get? 0 = some (fun j => if j = 0 then 1 else 0) ∧
    (1 < U64 ∧ 0 < 1 ∧ (0 : ℚ) < 1 / 2 ∧ (1 / 2 : ℚ) < 1) ∧
    (oneSampleOne.Quantile 0 0 = oneSampleOne.min_.get? 0 ∧
      (∀ p : ℚ, 1 ≤ p →
        oneSampleOne.Quantile 0 p = oneSampleOne.max_.get? 0) ∧
      (∃ i, oneSampleOne.Quantile 0 (1 / 2) =
          some (SimpleDDSketch.quantileVal i) ∧
        i ≤ kBinNum - 1 ∧
        (∀ j, j < i →
          SimpleDDSketch.cntAt (fun j => if j = 0 then 1 else 0) j ≤
            ⌊(1 / 2 : ℚ) * ((1 - 1 : ℕ) : ℚ)⌋₊) ∧
        (i < kBinNum - 1 →
          ⌊(1 / 2 : ℚ) * ((1 - 1 : ℕ) : ℚ)⌋₊ <
            SimpleDDSketch.cntAt (fun j => if j = 0 then 1 else 0) i))) :=
  ⟨rfl, rfl, ⟨by norm_num [U64], Nat.one_pos, by norm_num, by norm_num⟩,
    C3_quantile_walk oneSampleOne 0 1 (fun j => if j = 0 then 1 else 0)
      (1 / 2) rfl rfl (by norm_num [U64]) Nat.one_pos (by norm_num)
      (by norm_num)⟩

/-! ### Claim C6 — quantile monotonicity -/

/-- C6 (counterexample): the claim states `Quantile(k, q1) ≤
Quantile(k, q2)` for `q1 < q2` including the boundaries.  After a
single `Add(0, 1, 1)`, `Quantile(0, 0)` returns the exact minimum 1
while `Quantile(0, 1/2)` returns the floored midpoint
`⌊2/(Gamma+1)⌋ = 0`, so the boundary case `q1 = 0 < q2 = 1/2`
violates monotonicity. -/
theorem C6_quantile_mono_cex :
    (SimpleDDSketch.init 1).Add 0 1 1 = some oneSampleOne ∧
    oneSampleOne.Quantile 0 0 = some 1 ∧
    oneSampleOne.Quantile 0 (1 / 2) = some 0 ∧
    ¬ ((1 : ℕ) ≤ 0) :=
  ⟨add_one_one, oneSample_quantile_zero,
    oneSample_quantile_mid (1 / 2) (by norm_num) (by norm_num),
    by omega⟩

/-- C6 (amended): quantile monotonicity holds on the open interval:
for `0 < q1 ≤ q2 < 1` (any sketch state, any kind with a recorded
count), `Quantile(k, q1) ≤ Quantile(k, q2)`.  The boundary cases are
excluded: `q = 0` and `q ≥ 1` return the exact minimum/maximum, which
the floored midpoint estimator may under- or overshoot. -/
theorem C6_quantile_mono (s : SimpleDDSketch) (k n : ℕ) (q1 q2 : ℚ)
    (v1 v2 : ℕ) (hn : s.exec_nums_.get? k = some n) (_hpos : 0 < n)
    (h1 : 0 < q1) (h12 : q1 ≤ q2) (h2 : q2 < 1)
    (hv1 : s.Quantile k q1 = some v1) (hv2 : s.Quantile k q2 = some v2) :
    v1 ≤ v2 := by
  have hq10 : q1 ≠ 0 := ne_of_gt h1
  have hq11 : ¬ 1 ≤ q1 := not_le.mpr (lt_of_le_of_lt h12 h2)
  have hq20 : q2 ≠ 0 := ne_of_gt (lt_of_lt_of_le h1 h12)
  have hq21 : ¬ 1 ≤ q2 := not_le.mpr h2
  cases hbq : s.bins_.get? k with
  | none =>
    have hn' := hn
    have hb' := hbq
    rw [List.get?_eq_getElem?] at hn' hb'
    simp [SimpleDDSketch.Quantile, hq10, hq11, hn', hb'] at hv1
  | some b =>
    rw [Quantile_mid hq10 hq11 hn hbq] at hv1
    rw [Quantile_mid hq20 hq21 hn hbq] at hv2
    obtain rfl := Option.some_injective _ hv1.symm
    obtain rfl := Option.some_injective _ hv2.symm
    apply quantileVal_mono
    apply walk_result_mono
    apply Nat.floor_mono
    exact mul_le_mul_of_nonneg_right h12 (Nat.cast_nonneg _)

/-- C6 (witness). -/
theorem C6_quantile_mono_witness :
    oneSampleOne.exec_nums_.get? 0 = some 1 ∧
    ((0 : ℚ) < 1 / 4 ∧ (1 / 4 : ℚ) ≤ 1 / 2 ∧ (1 / 2 : ℚ) < 1) ∧
    oneSampleOne.Quantile 0 (1 / 4) = some 0 ∧
    oneSampleOne.Quantile 0 (1 / 2) = some 0 ∧
    (0 : ℕ) ≤ 0 :=
  ⟨rfl, ⟨by norm_num, by norm_num, by norm_num⟩,
    oneSample_quantile_mid (1 / 4) (by norm_num) (by norm_num),
    oneSample_quantile_mid (1 / 2) (by norm_num) (by norm_num),
    C6_quantile_mono oneSampleOne 0 1 (1 / 4) (1 / 2) 0 0 rfl Nat.one_pos
      (by norm_num) (by norm_num) (by norm_num)
      (oneSample_quantile_mid (1 / 4) (by norm_num) (by norm_num))
      (oneSample_quantile_mid (1 / 2) (by norm_num) (by norm_num))⟩

/-- C7 (witness). -/
theorem C7_quantile_empty_witness :
    0 < 1 ∧
    ((SimpleDDSketch.init 1).Quantile 0 0 = some (U64 - 1) ∧
      (1 ≤ (1 / 2 : ℚ) →
        (SimpleDDSketch.init 1).Quantile 0 (1 / 2) = some 0) ∧
      (0 < (1 / 2 : ℚ) → (1 / 2 : ℚ) < 1 →
        (SimpleDDSketch.init 1).Quantile 0 (1 / 2) =
          some (SimpleDDSketch.quantileVal (kBinNum - 1))) ∧
      SimpleDDSketch.quantileVal (kBinNum - 1) ≠ 0) :=
  ⟨Nat.one_pos, C7_quantile_empty 1 0 (1 / 2) Nat.one_pos⟩

/-- C8 (witness). -/
theorem C8_merge_no_shape_check_witness :
    (SimpleDDSketch.init 2).bins_.length ≤
        (SimpleDDSketch.init 2).exec_nums_.length ∧
    (((SimpleDDSketch.init 2).addAssign (SimpleDDSketch.init 3)).isSome =
        true ↔
      ((SimpleDDSketch.init 2).bins_.length ≤
          (SimpleDDSketch.init 3).exec_nums_.length ∧
        (SimpleDDSketch.init 2).bins_.length ≤
          (SimpleDDSketch.init 3).bins_.length)) :=
  ⟨le_refl _,
    C8_merge_no_shape_check (SimpleDDSketch.init 2) (SimpleDDSketch.init 3)
      (le_refl _)⟩

/-- C10 (witness). -/
theorem C10_move_sketch_witness :
    (Worker.MoveSketch ⟨SimpleDDSketch.init 1⟩).1 =
        (SimpleDDSketch.init 1) ∧
    ((SimpleDDSketch.init 1).min_ ≠ [] ∧
      (Worker.MoveSketch
          ((Worker.MoveSketch ⟨SimpleDDSketch.init 1⟩).2)).1 ≠
        SimpleDDSketch.init 1) :=
  ⟨(C10_move_sketch ⟨SimpleDDSketch.init 1⟩).1,
    by simp [SimpleDDSketch.init, U64],
    (C10_move_sketch ⟨SimpleDDSketch.init 1⟩).2
      (by simp [SimpleDDSketch.init, U64])⟩

/-! ### Claim C4 — the bucket-sum invariant -/

theorem U32_dvd_U64 : U32 ∣ U64 :=
  ⟨2 ^ 32, by norm_num [U32, U64]⟩

/-- C4 (amended): on every reachable sketch the 32-bit bucket counters
of a kind sum to the kind's execution count modulo `2^32` (the
counters are `uint32_t` and wrap individually, while `exec_nums_` is a
`size_t`; exact equality holds only below `2^32` samples). -/
theorem C4_bucket_sum_mod (s : SimpleDDSketch) (hs : Reachable s) :
    ∀ k b e, s.bins_.get? k = some b → s.exec_nums_.get? k = some e →
      (∑ j ∈ Finset.range kBinNum, b j) % U32 = e % U32 := by
  induction hs with
  | init n =>
    intro k b e hb he
    simp only [SimpleDDSketch.init] at hb he
    rw [listGet?_replicate] at hb he
    by_cases hk : k < n
    · rw [if_pos hk] at hb he
      obtain rfl : (fun _ => 0) = b := Option.some_injective _ hb
      obtain rfl : 0 = e := Option.some_injective _ he
      simp
    · rw [if_neg hk] at hb
      exact absurd hb (by simp)
  | @add s1 s2 k0 cnt lat hR hEq ih =>
    obtain ⟨hm1, hm2, he3, hb4, hpos5, rfl⟩ := Add_inv hEq
    intro k b e hb he
    simp only [listGet?_set] at hb he
    by_cases hk : k0 = k
    · subst hk
      rw [if_pos rfl, if_pos hb4] at hb
      rw [if_pos rfl, if_pos he3] at he
      obtain rfl := Option.some_injective _ hb
      obtain rfl := Option.some_injective _ he
      have hbold : s1.bins_.get? k0 = some (s1.bins_.get ⟨k0, hb4⟩) :=
        List.get?_eq_get hb4
      have heold : s1.exec_nums_.get? k0 =
          some (s1.exec_nums_.get ⟨k0, he3⟩) :=
        List.get?_eq_get he3
      have hgb : s1.bins_.getD k0 (fun _ => 0) = s1.bins_.get ⟨k0, hb4⟩ := by
        rw [listGetD_eq, hbold, Option.getD_some]
      have hge : s1.exec_nums_.getD k0 0 = s1.exec_nums_.get ⟨k0, he3⟩ := by
        rw [listGetD_eq, heold, Option.getD_some]
      rw [hgb, hge]
      have ihk := ih k0 (s1.bins_.get ⟨k0, hb4⟩) (s1.exec_nums_.get ⟨k0, he3⟩)
        hbold heold
      have hmem : binIndex lat ∈ Finset.range kBinNum :=
        Finset.mem_range.mpr hpos5
      have hsplit := Finset.sum_eq_sum_diff_singleton_add hmem
        (fun j => if j = binIndex lat
          then (s1.bins_.get ⟨k0, hb4⟩ j + 1) % U32
          else s1.bins_.get ⟨k0, hb4⟩ j)
      have hsplit2 := Finset.sum_eq_sum_diff_singleton_add hmem
        (fun j => s1.bins_.get ⟨k0, hb4⟩ j)
      have hdiff : ∑ j ∈ Finset.range kBinNum \ {binIndex lat},
          (if j = binIndex lat
            then (s1.bins_.get ⟨k0, hb4⟩ j + 1) % U32
            else s1.bins_.get ⟨k0, hb4⟩ j) =
          ∑ j ∈ Finset.range kBinNum \ {binIndex lat},
            s1.bins_.get ⟨k0, hb4⟩ j := by
        apply Finset.sum_congr rfl
        intro j hj
        rw [if_neg]
        intro hjeq
        rw [hjeq] at hj
        simp at hj
      have h1 : (∑ j ∈ Finset.range kBinNum,
          (if j = binIndex lat
            then (s1.bins_.get ⟨k0, hb4⟩ j + 1) % U32
            else s1.bins_.get ⟨k0, hb4⟩ j)) ≡
          (∑ j ∈ Finset.range kBinNum, s1.bins_.get ⟨k0, hb4⟩ j) + 1
            [MOD U32] := by
        rw [hsplit, hdiff, if_pos rfl, hsplit2]
        have hmm := Nat.mod_modEq (s1.bins_.get ⟨k0, hb4⟩ (binIndex lat) + 1) U32
        have hadd := Nat.ModEq.add_left
          (∑ j ∈ Finset.range kBinNum \ {binIndex lat},
            s1.bins_.get ⟨k0, hb4⟩ j) hmm
        simpa [Nat.add_assoc] using hadd
      have h2 : ((s1.exec_nums_.get ⟨k0, he3⟩ + 1) % U64) ≡
          s1.exec_nums_.get ⟨k0, he3⟩ + 1 [MOD U32] :=
        Nat.ModEq.of_dvd U32_dvd_U64 (Nat.mod_modEq _ _)
      have h3 : (∑ j ∈ Finset.range kBinNum, s1.bins_.get ⟨k0, hb4⟩ j) + 1 ≡
          s1.exec_nums_.get ⟨k0, he3⟩ + 1 [MOD U32] :=
        Nat.ModEq.add_right 1 ihk
      exact (h1.trans h3).trans h2.symm
    · rw [if_neg hk] at hb he
      exact ih k b e hb he
  | @merge s1 r m hRs hRr hm ihs ihr =>
    obtain ⟨hl1, hl2, hl3, rfl⟩ := addAssign_inv hm
    intro k b e hb he
    rw [mapWithIndex_get?] at hb he
    obtain ⟨bold, hbold, hbeq⟩ := Option.map_eq_some'.mp hb
    obtain ⟨eold, heold, heeq⟩ := Option.map_eq_some'.mp he
    obtain ⟨hklt, -⟩ := List.get?_eq_some.mp hbold
    subst hbeq
    subst heeq
    rw [if_pos hklt]
    rw [if_pos hklt]
    have hkr : k < r.bins_.length := lt_of_lt_of_le hklt hl3
    have hkre : k < r.exec_nums_.length := lt_of_lt_of_le hklt hl2
    have hrb : r.bins_.get? k = some (r.bins_.get ⟨k, hkr⟩) :=
      List.get?_eq_get hkr
    have hre : r.exec_nums_.get? k = some (r.exec_nums_.get ⟨k, hkre⟩) :=
      List.get?_eq_get hkre
    have hgrb : r.bins_.getD k (fun _ => 0) = r.bins_.get ⟨k, hkr⟩ := by
      rw [listGetD_eq, hrb, Option.getD_some]
    have hgre : r.exec_nums_.getD k 0 = r.exec_nums_.get ⟨k, hkre⟩ := by
      rw [listGetD_eq, hre, Option.getD_some]
    rw [hgrb, hgre]
    have ihs2 := ihs k bold eold hbold heold
    have ihr2 := ihr k (r.bins_.get ⟨k, hkr⟩) (r.exec_nums_.get ⟨k, hkre⟩)
      hrb hre
    have hsum : ∑ j ∈ Finset.range kBinNum,
        (if j < kBinNum
          then (bold j + r.bins_.get ⟨k, hkr⟩ j) % U32 else bold j) =
        ∑ j ∈ Finset.range kBinNum,
          (bold j + r.bins_.get ⟨k, hkr⟩ j) % U32 :=
      Finset.sum_congr rfl (fun j hj => by
        rw [if_pos (Finset.mem_range.mp hj)])
    have hmod : (∑ j ∈ Finset.range kBinNum,
        (bold j + r.bins_.get ⟨k, hkr⟩ j) % U32) ≡
        ∑ j ∈ Finset.range kBinNum,
          (bold j + r.bins_.get ⟨k, hkr⟩ j) [MOD U32] :=
      (Finset.sum_nat_mod (Finset.range kBinNum) U32
        (fun j => bold j + r.bins_.get ⟨k, hkr⟩ j)).symm
    have h2 : ((eold + r.exec_nums_.get ⟨k, hkre⟩) % U64) ≡
        eold + r.exec_nums_.get ⟨k, hkre⟩ [MOD U32] :=
      Nat.ModEq.of_dvd U32_dvd_U64 (Nat.mod_modEq _ _)
    have h3 : (∑ j ∈ Finset.range kBinNum, bold j) +
        (∑ j ∈ Finset.range kBinNum, r.bins_.get ⟨k, hkr⟩ j) ≡
        eold + r.exec_nums_.get ⟨k, hkre⟩ [MOD U32] :=
      Nat.ModEq.add ihs2 ihr2
    rw [hsum]
    calc (∑ j ∈ Finset.range kBinNum,
          (bold j + r.bins_.get ⟨k, hkr⟩ j) % U32)
        ≡ ∑ j ∈ Finset.range kBinNum,
            (bold j + r.bins_.get ⟨k, hkr⟩ j) [MOD U32] := hmod
      _ = (∑ j ∈ Finset.range kBinNum, bold j) +
            (∑ j ∈ Finset.range kBinNum, r.bins_.get ⟨k, hkr⟩ j) :=
          Finset.sum_add_distrib
      _ ≡ eold + r.exec_nums_.get ⟨k, hkre⟩ [MOD U32] := h3
      _ ≡ (eold + r.exec_nums_.get ⟨k, hkre⟩) % U64 [MOD U32] := h2.symm


theorem Add_init_zero :
    (SimpleDDSketch.init 1).Add 0 0 0 = some (zeroAddSketch 1) := by
  unfold SimpleDDSketch.Add
  rw [if_pos]
  · unfold SimpleDDSketch.init zeroAddSketch
    simp only [List.replicate, List.set_cons_zero, List.getD, List.get?,
      List.getElem?_cons_zero, Option.getD_some, Option.some.injEq,
      SimpleDDSketch.mk.injEq]
    refine ⟨?_, ?_, trivial, ?_, by norm_num, by norm_num⟩
    · rw [if_pos (show (0 : ℕ) < U64 - 1 by norm_num [U64])]
    · rw [if_neg (by omega)]
    · simp only [List.cons.injEq, and_true]
      funext j
      rw [binIndex_zero]
  · refine ⟨?_, ?_, ?_, ?_, ?_⟩ <;>
      simp [SimpleDDSketch.init, binIndex_zero, kBinNum]

theorem zeroAdd_step (m : ℕ) :
    (zeroAddSketch m).Add 0 0 0 = some (zeroAddSketch (m + 1)) := by
  unfold SimpleDDSketch.Add
  rw [if_pos]
  · unfold zeroAddSketch
    simp only [List.set_cons_zero, List.getD, List.get?,
      List.getElem?_cons_zero, Option.getD_some, Option.some.injEq,
      SimpleDDSketch.mk.injEq]
    refine ⟨?_, ?_, ?_, ?_, ?_, ?_⟩
    · rw [if_neg (by omega)]
    · rw [if_neg (by omega)]
    · rw [Nat.mod_add_mod]
    · simp only [List.cons.injEq, and_true]
      funext j
      rw [binIndex_zero]
      by_cases hj : j = 0
      · simp [hj, Nat.mod_add_mod]
      · simp [hj]
    · norm_num
    · norm_num
  · refine ⟨?_, ?_, ?_, ?_, ?_⟩ <;>
      simp [zeroAddSketch, binIndex_zero, kBinNum]

theorem addZeros_eq : ∀ n, addZeros (n + 1) = some (zeroAddSketch (n + 1)) := by
  intro n
  induction n with
  | zero =>
    show (addZeros 0).bind (fun s => s.Add 0 0 0) = _
    rw [show addZeros 0 = some (SimpleDDSketch.init 1) from rfl]
    rw [Option.some_bind]
    exact Add_init_zero
  | succ n ih =>
    show (addZeros (n + 1)).bind (fun s => s.Add 0 0 0) = _
    rw [ih, Option.some_bind]
    exact zeroAdd_step (n + 1)

theorem addZeros_reachable : ∀ n s, addZeros n = some s → Reachable s := by
  intro n
  induction n with
  | zero =>
    intro s h
    obtain rfl := Option.some_injective _ (h : _ = some s).symm
    exact Reachable.init 1
  | succ n ih =>
    intro s h
    obtain ⟨s0, hs0, hadd⟩ := Option.bind_eq_some.mp h
    exact Reachable.add 0 0 0 (ih s0 hs0) hadd

/-- C4 (counterexample): the claim states that on every reachable
sketch the 2048 bucket counters of a kind sum to `exec_nums_[k]`.  The
counters are `uint32_t`: after `2^32` repetitions of `Add(0, 0, 0)`
(all landing in bin 0) the bin counter has wrapped to 0 while the
`size_t` count `exec_nums_[0]` holds `2^32`, so the sum is 0 and the
equality fails. -/
theorem C4_bucket_sum_cex :
    Reachable (zeroAddSketch U32) ∧
    (zeroAddSketch U32).bins_.get? 0 =
      some (fun j => if j = 0 then U32 % U32 else 0) ∧
    (zeroAddSketch U32).exec_nums_.get? 0 = some (U32 % U64) ∧
    (∑ j ∈ Finset.range kBinNum, (if j = 0 then U32 % U32 else 0)) = 0 ∧
    U32 % U64 = 2 ^ 32 ∧ (0 : ℕ) ≠ 2 ^ 32 := by
  refine ⟨?_, rfl, rfl, ?_, ?_, ?_⟩
  · have h : U32 = (U32 - 1) + 1 := by norm_num [U32]
    have h2 := addZeros_eq (U32 - 1)
    rw [← h] at h2
    exact addZeros_reachable _ _ h2
  · simp [Nat.mod_self]
  · exact Nat.mod_eq_of_lt (by norm_num [U32, U64])
  · norm_num

/-- C4 (witness). -/
theorem C4_bucket_sum_mod_witness :
    Reachable (SimpleDDSketch.init 1) ∧
    (SimpleDDSketch.init 1).bins_.get? 0 = some zeroBins ∧
    (SimpleDDSketch.init 1).exec_nums_.get? 0 = some 0 ∧
    (∑ j ∈ Finset.range kBinNum, zeroBins j) % U32 = 0 % U32 :=
  ⟨Reachable.init 1, rfl, rfl,
    C4_bucket_sum_mod (SimpleDDSketch.init 1) (Reachable.init 1) 0
      zeroBins 0 rfl rfl⟩

/-! ### Claim C5 — the relative-error guarantee -/

/-- C5 (counterexample): the claim asserts the two-sided relative error
bound `|q − ℓ|/ℓ ≤ 2·Alpha/(1+Alpha²) = 200/10001 ≈ 0.02` for every
recorded latency `ℓ ≥ 1`.  A single sample of `ℓ = 1` lands in bin 0
and any interior quantile returns `⌊2/(Gamma+1)⌋ = ⌊0.99⌋ = 0`, a
relative error of 1. -/
theorem C5_relative_error_cex :
    (SimpleDDSketch.init 1).Add 0 1 1 = some oneSampleOne ∧
    oneSampleOne.Quantile 0 (1 / 2) = some 0 ∧
    ¬ (|(0 : ℚ) - 1| ≤ 200 / 10001 * 1) :=
  ⟨add_one_one, oneSample_quantile_mid (1 / 2) (by norm_num) (by norm_num),
    by norm_num⟩

/-- C5 (amended): for every latency `101 ≤ l ≤ 10^17` recorded via
`Add` and recovered through an interior quantile query, the returned
estimate `v = ⌊2·Gamma^(binIndex l)/(Gamma+1)⌋` satisfies
`|v − l| ≤ (200/10001)·l` (the claimed bound `2·Alpha/(1+Alpha²)`).
Latencies below 101 can violate the bound because the result is
truncated to an integer, and latencies above ≈ `2^0.02·2047` ns overflow
the bin array (claim C2). -/
theorem C5_relative_error (l : ℕ) (q : ℚ) (hl1 : 101 ≤ l)
    (hl2 : l ≤ 10 ^ 17) (hq0 : 0 < q) (hq1 : q < 1) :
    (SimpleDDSketch.init 1).Add 0 1 l = some (singleSketch l) ∧
    (singleSketch l).Quantile 0 q =
      some (SimpleDDSketch.quantileVal (binIndex l)) ∧
    |((SimpleDDSketch.quantileVal (binIndex l) : ℚ)) - l| ≤
      (200 / 10001) * l := by
  have h1l : 1 ≤ l := by omega
  have hU : l < U64 - 1 := lt_of_le_of_lt hl2 (by norm_num [U64])
  have hbin2047 : binIndex l ≤ kBinNum - 1 := binIndex_le_of_le l hl2
  have hbinlt : binIndex l < kBinNum :=
    lt_of_le_of_lt hbin2047 (by norm_num [kBinNum])
  refine ⟨Add_init_single l h1l hU hbinlt,
    singleSketch_quantile_mid l q hq0 hq1 hbin2047, ?_⟩
  have hbounds := binIndex_bounds l h1l
  have hgQ : (1 : ℚ) < kGamma := one_lt_kGammaQ
  have hdenQ : (0 : ℚ) < kGamma + 1 := by linarith
  have hMnn : (0 : ℚ) ≤ 2 * kGamma ^ binIndex l / (kGamma + 1) := by
    have hp : (0 : ℚ) ≤ kGamma ^ binIndex l := pow_nonneg (by linarith) _
    have h2p : (0 : ℚ) ≤ 2 * kGamma ^ binIndex l := by linarith
    exact div_nonneg h2p hdenQ.le
  have hfl : ((SimpleDDSketch.quantileVal (binIndex l) : ℚ)) ≤
      2 * kGamma ^ binIndex l / (kGamma + 1) := by
    unfold SimpleDDSketch.quantileVal
    exact Nat.floor_le hMnn
  have hfu : 2 * kGamma ^ binIndex l / (kGamma + 1) <
      (SimpleDDSketch.quantileVal (binIndex l) : ℚ) + 1 := by
    unfold SimpleDDSketch.quantileVal
    exact Nat.lt_floor_add_one _
  have hMcast : ((2 * kGamma ^ binIndex l / (kGamma + 1) : ℚ) : ℝ) =
      2 * kGammaR ^ binIndex l / (kGammaR + 1) := by
    rw [kGammaR]
    push_cast
    ring
  have hdenR : (0 : ℝ) < kGammaR + 1 := by
    have := one_lt_kGammaR; linarith
  have hRl : 2 * (l : ℝ) / (kGammaR + 1) ≤
      2 * kGammaR ^ binIndex l / (kGammaR + 1) :=
    (div_le_div_iff_of_pos_right hdenR).mpr (by linarith [hbounds.1])
  have hRu : 2 * kGammaR ^ binIndex l / (kGammaR + 1) <
      2 * (kGammaR * l) / (kGammaR + 1) :=
    (div_lt_div_iff_of_pos_right hdenR).mpr (by linarith [hbounds.2])
  have hlo : (99 / 100 : ℝ) * l = 2 * (l : ℝ) / (kGammaR + 1) := by
    rw [kGammaR_eq]
    field_simp
    ring
  have hhi : 2 * (kGammaR * (l : ℝ)) / (kGammaR + 1) = (101 / 100) * l := by
    rw [kGammaR_eq]
    field_simp
    ring
  set v : ℕ := SimpleDDSketch.quantileVal (binIndex l) with hv
  have hvlR : (v : ℝ) ≤ 2 * kGammaR ^ binIndex l / (kGammaR + 1) := by
    rw [← hMcast]
    exact_mod_cast hfl
  have hvuR : 2 * kGammaR ^ binIndex l / (kGammaR + 1) < (v : ℝ) + 1 := by
    rw [← hMcast]
    exact_mod_cast hfu
  have hlR : (101 : ℝ) ≤ (l : ℝ) := by exact_mod_cast hl1
  have hreal : |(v : ℝ) - l| ≤ (200 / 10001) * l := by
    rw [abs_le]
    constructor
    · nlinarith [hvuR, hRl, hlo]
    · nlinarith [hvlR, hRu, hhi]
  rw [abs_le] at hreal
  rw [abs_le]
  have key : ∀ a b : ℚ, ((a : ℝ) ≤ (b : ℝ)) → a ≤ b := fun a b h => by
    exact_mod_cast h
  constructor
  · apply key
    push_cast
    exact hreal.1
  · apply key
    push_cast
    exact hreal.2

/-- C5 (witness). -/
theorem C5_relative_error_witness :
    ((101 : ℕ) ≤ 1000 ∧ (1000 : ℕ) ≤ 10 ^ 17 ∧
      (0 : ℚ) < 1 / 2 ∧ (1 / 2 : ℚ) < 1) ∧
    ((SimpleDDSketch.init 1).Add 0 1 1000 = some (singleSketch 1000) ∧
      (singleSketch 1000).Quantile 0 (1 / 2) =
        some (SimpleDDSketch.quantileVal (binIndex 1000)) ∧
      |((SimpleDDSketch.quantileVal (binIndex 1000) : ℚ)) -
          ((1000 : ℕ) : ℚ)| ≤ (200 / 10001) * ((1000 : ℕ) : ℚ)) :=
  ⟨⟨by norm_num, by norm_num, by norm_num, by norm_num⟩,
    C5_relative_error 1000 (1 / 2) (by norm_num) (by norm_num)
      (by norm_num) (by norm_num)⟩

end CppBench
